import Mathlib

/-!
Shallow embedding of the camera-geometry and sampling kernels of
`code/lib/utils/utils.py` (vid2avatar), together with theorems checking the
specified properties of `get_sphere_intersections`, `inverse_3x3_batch`,
`weighted_sampling` / `bilinear_interpolation`, `get_camera_params`,
`quat_to_rot` and `rot_to_quat`.

Float tensors are embedded as exact numbers: rationals where the source code
performs only field operations and comparisons, reals where a square root is
taken.  Batches are lists; per-element float NaN sentinels are `Option`
values; the fatal whole-call failure modes (process exit, raised exception)
are embedded as an `Option`-returning function producing `none`.
-/

namespace V2A

/-- A 3-vector, one row of an `n x 3` tensor. -/
structure Vec3 where
  x : ℚ
  y : ℚ
  z : ℚ
deriving DecidableEq

/-- Per-row dot product, as in `torch.bmm(dirs.view(-1,1,3), locs.view(-1,3,1))`. -/
def dot3 (a b : Vec3) : ℚ :=
  a.x * b.x + a.y * b.y + a.z * b.z

/-- Squared Euclidean norm, `cam_loc.norm(2, 1) ** 2`. -/
def normSq3 (a : Vec3) : ℚ :=
  dot3 a a

/-! ## Sphere intersection (`get_sphere_intersections`, utils.py lines 184-203) -/

/-- The radicand computed in `get_sphere_intersections`:
`ray_cam_dot ** 2 - (cam_loc.norm(2,1) ** 2 - r ** 2)`. -/
def under_sqrt (cam_loc ray_dir : Vec3) (r : ℚ) : ℚ :=
  (dot3 ray_dir cam_loc) ^ 2 - (normSq3 cam_loc - r ^ 2)

/-- One row of the output of `get_sphere_intersections`:
`sqrt(under_sqrt) * [-1, 1] - ray_cam_dot`, then `clamp_min(0.0)`. -/
noncomputable def sphere_pair (cam_loc ray_dir : Vec3) (r : ℚ) : ℝ × ℝ :=
  let b : ℝ := (dot3 ray_dir cam_loc : ℚ)
  let s : ℝ := Real.sqrt ((under_sqrt cam_loc ray_dir r : ℚ) : ℝ)
  (max (-s - b) 0, max (s - b) 0)

/-- `get_sphere_intersections(cam_loc, ray_directions, r)`.  The source prints
`BOUNDING SPHERE PROBLEM!` and calls `exit()` when `(under_sqrt <= 0).sum() > 0`;
that whole-call abort is embedded as `none`. -/
noncomputable def get_sphere_intersections (cam_loc ray_directions : List Vec3)
    (r : ℚ) : Option (List (ℝ × ℝ)) :=
  let pairs := List.zip cam_loc ray_directions
  if pairs.any (fun p => decide (under_sqrt p.1 p.2 r ≤ 0)) then none
  else some (pairs.map fun p => sphere_pair p.1 p.2 r)

/-! ## Batched 3x3 inverse (`inverse_3x3_batch`, utils.py lines 438-467) -/

/-- A 3x3 matrix of entries of type `α`; one element of a `B x 3 x 3` tensor. -/
structure GMat3 (α : Type) where
  m00 : α
  m01 : α
  m02 : α
  m10 : α
  m11 : α
  m12 : α
  m20 : α
  m21 : α
  m22 : α
deriving DecidableEq

/-- Apply `f` entrywise. -/
def GMat3.map {α β : Type} (f : α → β) (m : GMat3 α) : GMat3 β :=
  ⟨f m.m00, f m.m01, f m.m02, f m.m10, f m.m11, f m.m12, f m.m20, f m.m21, f m.m22⟩

/-- The cofactor-expansion determinant computed in `inverse_3x3_batch`. -/
def det3 (m : GMat3 ℚ) : ℚ :=
  m.m00 * (m.m11 * m.m22 - m.m12 * m.m21)
    - m.m01 * (m.m10 * m.m22 - m.m12 * m.m20)
    + m.m02 * (m.m10 * m.m21 - m.m11 * m.m20)

/-- The adjugate matrix `adj` filled in entry by entry in `inverse_3x3_batch`. -/
def adjugate3 (m : GMat3 ℚ) : GMat3 ℚ :=
  { m00 := m.m11 * m.m22 - m.m12 * m.m21
    m01 := m.m02 * m.m21 - m.m01 * m.m22
    m02 := m.m01 * m.m12 - m.m02 * m.m11
    m10 := m.m12 * m.m20 - m.m10 * m.m22
    m11 := m.m00 * m.m22 - m.m02 * m.m20
    m12 := m.m10 * m.m02 - m.m00 * m.m12
    m20 := m.m10 * m.m21 - m.m11 * m.m20
    m21 := m.m20 * m.m01 - m.m00 * m.m21
    m22 := m.m00 * m.m11 - m.m10 * m.m01 }

/-- `adj / det` for one batch element. -/
def inv3 (m : GMat3 ℚ) : GMat3 ℚ :=
  (adjugate3 m).map (fun e => e / det3 m)

/-- The all-NaN matrix written over a singular element by
`inv_matrices[singular_mask] = float('nan')`; NaN entries are `none`. -/
def nan3 : GMat3 (Option ℚ) :=
  ⟨none, none, none, none, none, none, none, none, none⟩

/-- One batch element of `inverse_3x3_batch`: an all-NaN matrix when the
determinant is exactly zero, `adj / det` otherwise. -/
def inv_one (m : GMat3 ℚ) : GMat3 (Option ℚ) :=
  if det3 m = 0 then nan3 else (inv3 m).map some

/-- `inverse_3x3_batch(mat)`.  The second component records whether the
diagnostic `Warning: Singular matrices found.` is printed
(`singular_mask.any()`); the call itself always returns the full batch. -/
def inverse_3x3_batch (mats : List (GMat3 ℚ)) : List (GMat3 (Option ℚ)) × Bool :=
  (mats.map inv_one, mats.any fun m => decide (det3 m = 0))

/-- Matrix product of two 3x3 rational matrices (`M @ Minv`). -/
def mul3 (a b : GMat3 ℚ) : GMat3 ℚ :=
  { m00 := a.m00 * b.m00 + a.m01 * b.m10 + a.m02 * b.m20
    m01 := a.m00 * b.m01 + a.m01 * b.m11 + a.m02 * b.m21
    m02 := a.m00 * b.m02 + a.m01 * b.m12 + a.m02 * b.m22
    m10 := a.m10 * b.m00 + a.m11 * b.m10 + a.m12 * b.m20
    m11 := a.m10 * b.m01 + a.m11 * b.m11 + a.m12 * b.m21
    m12 := a.m10 * b.m02 + a.m11 * b.m12 + a.m12 * b.m22
    m20 := a.m20 * b.m00 + a.m21 * b.m10 + a.m22 * b.m20
    m21 := a.m20 * b.m01 + a.m21 * b.m11 + a.m22 * b.m21
    m22 := a.m20 * b.m02 + a.m21 * b.m12 + a.m22 * b.m22 }

/-- The 3x3 identity matrix. -/
def id3 : GMat3 ℚ :=
  ⟨1, 0, 0, 0, 1, 0, 0, 0, 1⟩

/-! ## Weighted sampling (`weighted_sampling`, `bilinear_interpolation`,
`get_index_outside_of_bbox`, utils.py lines 206-272).

The two `np.random.rand` draws are made explicit inputs `randB`/`randU`; draw
`k` supplies the two coordinates of the `k`-th sampled point, each in `[0,1)`.
`np.where` over an all-false mask gives empty index arrays and the subsequent
`.min(axis=1)` raises, aborting the call before sampling: embedded as `none`. -/

/-- The coordinates returned by `np.where(mask)`, in row-major order. -/
def truePixels (mask : List (List Bool)) : List (ℕ × ℕ) :=
  (mask.enum.map fun ri =>
    ri.2.enum.filterMap fun cj => if cj.2 then some (ri.1, cj.1) else none).flatten

/-- `where.min(axis=1)` and `where.max(axis=1)`: the bounding box of the mask,
undefined (an aborting reduction over an empty array) when no pixel is set. -/
def bboxOf (mask : List (List Bool)) : Option ((ℕ × ℕ) × (ℕ × ℕ)) :=
  match truePixels mask with
  | [] => none
  | p :: ps =>
    some (ps.foldl (fun a q => (min a.1 q.1, min a.2 q.2)) p,
          ps.foldl (fun a q => (max a.1 q.1, max a.2 q.2)) p)

/-- Python `int(...)` on a float: truncation toward zero. -/
def ratTrunc (q : ℚ) : ℤ :=
  if 0 ≤ q then ⌊q⌋ else ⌈q⌉

/-- `num_sample_bbox = int(num_sample * bbox_ratio)`. -/
def num_sample_bbox (num_sample : ℕ) (bbox_ratio : ℚ) : ℕ :=
  (ratTrunc ((num_sample : ℚ) * bbox_ratio)).toNat

/-- `samples_bbox = np.random.rand(nb, 2) * (bbox_max - bbox_min) + bbox_min`. -/
def samples_bbox (bbox_min bbox_max : ℕ × ℕ) (nb : ℕ) (randB : ℕ → ℚ × ℚ) :
    List (ℚ × ℚ) :=
  (List.range nb).map fun k =>
    ((randB k).1 * ((bbox_max.1 : ℚ) - (bbox_min.1 : ℚ)) + (bbox_min.1 : ℚ),
     (randB k).2 * ((bbox_max.2 : ℚ) - (bbox_min.2 : ℚ)) + (bbox_min.2 : ℚ))

/-- `samples_uniform = np.random.rand(nu, 2) * (img_size[0]-1, img_size[1]-1)`. -/
def samples_uniform (img_size : ℕ × ℕ) (nu : ℕ) (randU : ℕ → ℚ × ℚ) :
    List (ℚ × ℚ) :=
  (List.range nu).map fun k =>
    ((randU k).1 * ((img_size.1 : ℚ) - 1), (randU k).2 * ((img_size.2 : ℚ) - 1))

/-- `get_index_outside_of_bbox(samples_uniform, bbox_min, bbox_max)`. -/
def get_index_outside_of_bbox (su : List (ℚ × ℚ)) (bbox_min bbox_max : ℕ × ℕ) :
    List ℕ :=
  su.enum.filterMap fun ie =>
    if ie.2.1 < (bbox_min.1 : ℚ) ∨ (bbox_max.1 : ℚ) < ie.2.1 ∨
        ie.2.2 < (bbox_min.2 : ℚ) ∨ (bbox_max.2 : ℚ) < ie.2.2 then some ie.1 else none

/-- `bilinear_interpolation(xs, ys, dist_map)` for a single coordinate pair:
`x1 = floor(x)`, `x2 = x1 + 1`, and the `dx @ Q @ dy` weighted sum of the four
neighbouring grid entries.  The grid is totalised over `ℤ x ℤ` indices. -/
def bilinear_interpolation (x y : ℚ) (g : ℤ → ℤ → ℚ) : ℚ :=
  let x1 := ⌊x⌋
  let y1 := ⌊y⌋
  let x2 := x1 + 1
  let y2 := y1 + 1
  ((x2 : ℚ) - x) * ((y2 : ℚ) - y) * g x1 y1 + ((x2 : ℚ) - x) * (y - (y1 : ℚ)) * g x1 y2
    + (x - (x1 : ℚ)) * ((y2 : ℚ) - y) * g x2 y1 + (x - (x1 : ℚ)) * (y - (y1 : ℚ)) * g x2 y2

/-- One entry of the `data` dict: a dense 2D array (`len(val.shape) == 2`) or
a 2D array with a trailing channel dimension (`len(val.shape) == 3`). -/
inductive Field where
  | f2 (g : ℤ → ℤ → ℚ)
  | f3 (c : ℕ) (g : ℤ → ℤ → ℕ → ℚ)

/-- One entry of the sampler output after `reshape(-1, *val.shape[2:])`. -/
inductive FieldOut where
  | o2 (vals : List ℚ)
  | o3 (c : ℕ) (vals : List (List ℚ))

/-- The per-field interpolation loop of `weighted_sampling`: a 3D field is
interpolated channel by channel and restacked. -/
def sampleField (coords : List (ℚ × ℚ)) : Field → FieldOut
  | .f2 g => .o2 (coords.map fun p => bilinear_interpolation p.1 p.2 g)
  | .f3 c g => .o3 c (coords.map fun p =>
      (List.range c).map fun ch => bilinear_interpolation p.1 p.2 (fun a b => g a b ch))

/-- `indices = np.concatenate([samples_bbox, samples_uniform])`. -/
def sampling_indices (bbox_min bbox_max img_size : ℕ × ℕ) (num_sample : ℕ)
    (bbox_ratio : ℚ) (randB randU : ℕ → ℚ × ℚ) : List (ℚ × ℚ) :=
  samples_bbox bbox_min bbox_max (num_sample_bbox num_sample bbox_ratio) randB ++
    samples_uniform img_size (num_sample - num_sample_bbox num_sample bbox_ratio) randU

/-- `weighted_sampling(data, img_size, num_sample, bbox_ratio)`. -/
def weighted_sampling (data : List Field) (mask : List (List Bool))
    (img_size : ℕ × ℕ) (num_sample : ℕ) (bbox_ratio : ℚ)
    (randB randU : ℕ → ℚ × ℚ) : Option (List FieldOut × List ℕ) :=
  match bboxOf mask with
  | none => none
  | some (bbox_min, bbox_max) =>
    let nb := num_sample_bbox num_sample bbox_ratio
    let su := samples_uniform img_size (num_sample - nb) randU
    let index_outside := (get_index_outside_of_bbox su bbox_min bbox_max).map (· + nb)
    some (data.map (sampleField
      (sampling_indices bbox_min bbox_max img_size num_sample bbox_ratio randB randU)),
      index_outside)

/-- Output-shape contract of one field: as many interpolated values as
requested samples, with the channel dimensionality preserved. -/
def fieldOutOk (n : ℕ) : Field → FieldOut → Prop
  | .f2 _, .o2 vals => vals.length = n
  | .f3 c _, .o3 c2 vals => c2 = c ∧ vals.length = n ∧ ∀ v ∈ vals, v.length = c
  | _, _ => False

/-- Fixed random stream used by witnesses: every draw is `(1/2, 1/2)`. -/
def wRand : ℕ → ℚ × ℚ := fun _ => (1 / 2, 1 / 2)

/-- The output of `weighted_sampling` at the concrete witness call below. -/
def wOut : List FieldOut × List ℕ :=
  ([sampleField (sampling_indices (0, 0) (0, 0) (4, 4) 3 (9 / 10) wRand wRand)
      (Field.f2 fun _ _ => 0)],
   (get_index_outside_of_bbox
      (samples_uniform (4, 4) (3 - num_sample_bbox 3 (9 / 10)) wRand)
      (0, 0) (0, 0)).map (· + num_sample_bbox 3 (9 / 10)))

/-- The first bounding-box-biased sample generated by the concrete sampling
call used in the in-bounds witness. -/
def wPt : ℚ × ℚ :=
  ((wRand 0).1 * ((((0, 0) : ℕ × ℕ).1 : ℚ) - (((0, 0) : ℕ × ℕ).1 : ℚ))
      + (((0, 0) : ℕ × ℕ).1 : ℚ),
   (wRand 0).2 * ((((0, 0) : ℕ × ℕ).2 : ℚ) - (((0, 0) : ℕ × ℕ).2 : ℚ))
      + (((0, 0) : ℕ × ℕ).2 : ℚ))

/-! ## Camera rays and rotation algebra (`get_camera_params`, `lift`,
`quat_to_rot`, `rot_to_quat`, utils.py lines 79-181).

These kernels take square roots (`F.normalize`, `torch.sqrt`), so they are
embedded over the reals.  `F.normalize(x, dim)` divides by
`max(norm(x), eps)` with the torch default `eps = 1e-12`. -/

/-- The `F.normalize` clamp `eps = 1e-12`. -/
noncomputable def nEps : ℝ := 1 / 10 ^ 12

/-- A real 3-vector (one row of a `... x 3` float tensor). -/
structure Vec3R where
  x : ℝ
  y : ℝ
  z : ℝ

/-- Euclidean norm. -/
noncomputable def vnorm (v : Vec3R) : ℝ :=
  Real.sqrt (v.x ^ 2 + v.y ^ 2 + v.z ^ 2)

/-- `F.normalize(v)`: divide by the clamped norm. -/
noncomputable def vnormalize (v : Vec3R) : Vec3R :=
  let d := max (vnorm v) nEps
  ⟨v.x / d, v.y / d, v.z / d⟩

/-- Componentwise difference `world_coords - cam_loc`. -/
noncomputable def vsub (a b : Vec3R) : Vec3R :=
  ⟨a.x - b.x, a.y - b.y, a.z - b.z⟩

/-- A quaternion in scalar-first convention, one row of a `B x 4` tensor. -/
structure Quat where
  r : ℝ
  i : ℝ
  j : ℝ
  k : ℝ

/-- Quaternion Euclidean norm. -/
noncomputable def qnorm (q : Quat) : ℝ :=
  Real.sqrt (q.r ^ 2 + q.i ^ 2 + q.j ^ 2 + q.k ^ 2)

/-- `F.normalize(q, dim=1)`. -/
noncomputable def qnormalize (q : Quat) : Quat :=
  let d := max (qnorm q) nEps
  ⟨q.r / d, q.i / d, q.j / d, q.k / d⟩

/-- `quat_to_rot(q)`: normalize, then the standard scalar-first
quaternion-to-matrix formula, entry for entry as in the source. -/
noncomputable def quat_to_rot (q : Quat) : GMat3 ℝ :=
  let n := qnormalize q
  { m00 := 1 - 2 * (n.j ^ 2 + n.k ^ 2)
    m01 := 2 * (n.j * n.i - n.k * n.r)
    m02 := 2 * (n.i * n.k + n.r * n.j)
    m10 := 2 * (n.j * n.i + n.k * n.r)
    m11 := 1 - 2 * (n.i ^ 2 + n.k ^ 2)
    m12 := 2 * (n.j * n.k - n.i * n.r)
    m20 := 2 * (n.k * n.i - n.j * n.r)
    m21 := 2 * (n.j * n.k + n.i * n.r)
    m22 := 1 - 2 * (n.i ^ 2 + n.j ^ 2) }

/-- `rot_to_quat(R)`: the single-branch trace method of the source. -/
noncomputable def rot_to_quat (R : GMat3 ℝ) : Quat :=
  let q0 := Real.sqrt (1 + R.m00 + R.m11 + R.m22) / 2
  ⟨q0, (R.m21 - R.m12) / (4 * q0), (R.m02 - R.m20) / (4 * q0),
    (R.m10 - R.m01) / (4 * q0)⟩

/-- A 4x4 float matrix (pose in homogeneous form, or intrinsics). -/
structure Mat4 where
  e00 : ℝ
  e01 : ℝ
  e02 : ℝ
  e03 : ℝ
  e10 : ℝ
  e11 : ℝ
  e12 : ℝ
  e13 : ℝ
  e20 : ℝ
  e21 : ℝ
  e22 : ℝ
  e23 : ℝ
  e30 : ℝ
  e31 : ℝ
  e32 : ℝ
  e33 : ℝ

/-- A homogeneous 4-vector. -/
structure Vec4R where
  x : ℝ
  y : ℝ
  z : ℝ
  w : ℝ

/-- `lift(x, y, z, intrinsics)`: closed-form inverse pinhole with skew; the
intrinsics slots are `fx = K[0,0]`, `fy = K[1,1]`, `cx = K[0,2]`,
`cy = K[1,2]`, `sk = K[0,1]`. -/
noncomputable def lift (x y z : ℝ) (K : Mat4) : Vec4R :=
  ⟨(x - K.e02 + K.e12 * K.e01 / K.e11 - K.e01 * y / K.e11) / K.e00 * z,
   (y - K.e12) / K.e11 * z, z, 1⟩

/-- The pose argument of `get_camera_params`, discriminated in the source by
its trailing dimension: a 7-vector `[q, t]` or a 4x4 matrix. -/
inductive Pose where
  | quat7 (q : Quat) (t : Vec3R)
  | mat4 (m : Mat4)

/-- The 4x4 homogeneous pose assembled in the quaternion branch of
`get_camera_params`: rotation top-left, translation top-right, remaining
entries from the identity. -/
def homogPose (R : GMat3 ℝ) (t : Vec3R) : Mat4 :=
  ⟨R.m00, R.m01, R.m02, t.x,
   R.m10, R.m11, R.m12, t.y,
   R.m20, R.m21, R.m22, t.z,
   0, 0, 0, 1⟩

/-- `cam_loc`: `pose[:, 4:]` in the 7-vector branch, `pose[:, :3, 3]` in the
matrix branch. -/
def poseLoc : Pose → Vec3R
  | .quat7 _ t => t
  | .mat4 m => ⟨m.e03, m.e13, m.e23⟩

/-- The 4x4 matrix `p` used for the batch matrix product. -/
noncomputable def poseMat : Pose → Mat4
  | .quat7 q t => homogPose (quat_to_rot q) t
  | .mat4 m => m

/-- First three components of `p @ pixel_points_cam` for one lifted pixel. -/
noncomputable def mat4App (p : Mat4) (v : Vec4R) : Vec3R :=
  ⟨p.e00 * v.x + p.e01 * v.y + p.e02 * v.z + p.e03 * v.w,
   p.e10 * v.x + p.e11 * v.y + p.e12 * v.z + p.e13 * v.w,
   p.e20 * v.x + p.e21 * v.y + p.e22 * v.z + p.e23 * v.w⟩

/-- The un-normalised ray direction `world_coords - cam_loc` of one sample. -/
noncomputable def rawDir (pose : Pose) (K : Mat4) (s : ℝ × ℝ) : Vec3R :=
  vsub (mat4App (poseMat pose) (lift s.1 s.2 1 K)) (poseLoc pose)

/-- `get_camera_params(uv, pose, intrinsics)` for one image of the batch:
pixels lifted at unit depth, transformed by the pose, re-based at `cam_loc`
and normalised; `cam_loc` is returned alongside. -/
noncomputable def get_camera_params (uv : List (ℝ × ℝ)) (pose : Pose) (K : Mat4) :
    List Vec3R × Vec3R :=
  (uv.map fun s => vnormalize (rawDir pose K s), poseLoc pose)

/-- The identity 4x4 matrix, used as concrete intrinsics and pose. -/
def idMat4 : Mat4 :=
  ⟨1, 0, 0, 0, 0, 1, 0, 0, 0, 0, 1, 0, 0, 0, 0, 1⟩

example : det3 ⟨1, 2, 3, 0, 1, 4, 5, 6, 0⟩ = 1 := by norm_num [det3]

example : inv_one ⟨0, 0, 0, 0, 0, 0, 0, 0, 0⟩ = nan3 := by norm_num [inv_one, det3]

example : mul3 ⟨1, 2, 3, 0, 1, 4, 5, 6, 0⟩ (inv3 ⟨1, 2, 3, 0, 1, 4, 5, 6, 0⟩) = id3 := by
  norm_num [mul3, inv3, adjugate3, det3, GMat3.map, id3]

example : truePixels [[false, true], [true, false]] = [(0, 1), (1, 0)] := by decide

example : bboxOf [[false, true], [true, false]] = some ((0, 0), (1, 1)) := by decide

example : bboxOf [[false, false]] = none := by decide

example : num_sample_bbox 3 (9 / 10) = 2 := by
  norm_num [num_sample_bbox, ratTrunc]
  rfl

example : bilinear_interpolation (1 / 2) 1 (fun a b => (a : ℚ) + 2 * b) = 5 / 2 := by
  norm_num [bilinear_interpolation, Int.floor_one]

/-- The componentwise-min fold used for `bbox_min` is below its accumulator. -/
lemma foldl_min_le_acc (ps : List (ℕ × ℕ)) (acc : ℕ × ℕ) :
    (ps.foldl (fun a q => (min a.1 q.1, min a.2 q.2)) acc).1 ≤ acc.1 ∧
    (ps.foldl (fun a q => (min a.1 q.1, min a.2 q.2)) acc).2 ≤ acc.2 := by
  induction ps generalizing acc with
  | nil => exact ⟨le_rfl, le_rfl⟩
  | cons q ps ih =>
    simp only [List.foldl_cons]
    exact ⟨(ih _).1.trans (min_le_left _ _), (ih _).2.trans (min_le_left _ _)⟩

/-- The componentwise-max fold used for `bbox_max` is above its accumulator. -/
lemma acc_le_foldl_max (ps : List (ℕ × ℕ)) (acc : ℕ × ℕ) :
    acc.1 ≤ (ps.foldl (fun a q => (max a.1 q.1, max a.2 q.2)) acc).1 ∧
    acc.2 ≤ (ps.foldl (fun a q => (max a.1 q.1, max a.2 q.2)) acc).2 := by
  induction ps generalizing acc with
  | nil => exact ⟨le_rfl, le_rfl⟩
  | cons q ps ih =>
    simp only [List.foldl_cons]
    exact ⟨le_trans (le_max_left _ _) (ih (max acc.1 q.1, max acc.2 q.2)).1,
           le_trans (le_max_left _ _) (ih (max acc.1 q.1, max acc.2 q.2)).2⟩

/-- The componentwise-max fold stays below any bound dominating the
accumulator and every list element. -/
lemma foldl_max_bound (ps : List (ℕ × ℕ)) (acc : ℕ × ℕ) (H W : ℕ)
    (hacc : acc.1 < H ∧ acc.2 < W) (hps : ∀ p ∈ ps, p.1 < H ∧ p.2 < W) :
    (ps.foldl (fun a q => (max a.1 q.1, max a.2 q.2)) acc).1 < H ∧
    (ps.foldl (fun a q => (max a.1 q.1, max a.2 q.2)) acc).2 < W := by
  induction ps generalizing acc with
  | nil => exact hacc
  | cons q ps ih =>
    simp only [List.foldl_cons]
    refine ih _ ⟨?_, ?_⟩ fun p hp => hps p (List.mem_cons_of_mem q hp)
    · exact max_lt hacc.1 (hps q (List.mem_cons_self q ps)).1
    · exact max_lt hacc.2 (hps q (List.mem_cons_self q ps)).2

/-- A computed bounding box has its min componentwise below its max. -/
lemma bbox_min_le_max (mask : List (List Bool)) (bmin bmax : ℕ × ℕ)
    (hbb : bboxOf mask = some (bmin, bmax)) :
    bmin.1 ≤ bmax.1 ∧ bmin.2 ≤ bmax.2 := by
  unfold bboxOf at hbb
  cases htp : truePixels mask with
  | nil => rw [htp] at hbb; cases hbb
  | cons p ps =>
    rw [htp, Option.some_inj] at hbb
    have h1 := congrArg Prod.fst hbb
    have h2 := congrArg Prod.snd hbb
    simp only at h1 h2
    rw [← h1, ← h2]
    constructor
    · exact le_trans (foldl_min_le_acc ps p).1 (acc_le_foldl_max ps p).1
    · exact le_trans (foldl_min_le_acc ps p).2 (acc_le_foldl_max ps p).2

/-- A computed bounding box lies inside any grid containing every True pixel. -/
lemma bbox_max_lt (mask : List (List Bool)) (bmin bmax : ℕ × ℕ) (H W : ℕ)
    (hbb : bboxOf mask = some (bmin, bmax))
    (hpx : ∀ pr ∈ truePixels mask, pr.1 < H ∧ pr.2 < W) :
    bmax.1 < H ∧ bmax.2 < W := by
  unfold bboxOf at hbb
  cases htp : truePixels mask with
  | nil => rw [htp] at hbb; cases hbb
  | cons p ps =>
    rw [htp, Option.some_inj] at hbb
    have h2 := congrArg Prod.snd hbb
    simp only at h2
    rw [← h2]
    exact foldl_max_bound ps p H W (hpx p (htp ▸ List.mem_cons_self p ps))
      fun q hq => hpx q (htp ▸ List.mem_cons_of_mem p hq)

/-- A biased sample coordinate `u * (hi - lo) + lo` with `u` in `[0,1]` stays
inside `[lo, hi]`. -/
lemma bbox_coord_bounds (u : ℚ) (hu0 : 0 ≤ u) (hu1 : u ≤ 1) (lo hi : ℕ)
    (hle : lo ≤ hi) :
    (lo : ℚ) ≤ u * ((hi : ℚ) - lo) + lo ∧ u * ((hi : ℚ) - lo) + lo ≤ (hi : ℚ) := by
  have hd : (0 : ℚ) ≤ (hi : ℚ) - lo := by
    rw [sub_nonneg]
    exact_mod_cast hle
  constructor
  · nlinarith
  · nlinarith

/-- Floor-index bounds for a bounding-box-biased coordinate: its `floor` and
`floor + 1` grid indices stay within `[0, sz - 1]` provided either the box is
non-degenerate on this axis or its max leaves a one-pixel margin. -/
lemma floor_bound_bbox (u : ℚ) (hu0 : 0 ≤ u) (hu1 : u < 1) (lo hi sz : ℕ)
    (hle : lo ≤ hi) (hlt : hi < sz) (hsz : 2 ≤ sz) (hax : lo < hi ∨ hi ≤ sz - 2) :
    0 ≤ ⌊u * ((hi : ℚ) - lo) + lo⌋ ∧
    ⌊u * ((hi : ℚ) - lo) + lo⌋ + 1 ≤ (sz : ℤ) - 1 := by
  have hd : (0 : ℚ) ≤ (hi : ℚ) - lo := by
    rw [sub_nonneg]
    exact_mod_cast hle
  have hx0 : (0 : ℚ) ≤ u * ((hi : ℚ) - lo) + lo :=
    add_nonneg (mul_nonneg hu0 hd) (Nat.cast_nonneg lo)
  refine ⟨Int.le_floor.mpr (by exact_mod_cast hx0), ?_⟩
  rcases hax with hlo | hhi
  · have hdpos : (0 : ℚ) < (hi : ℚ) - lo := by
      rw [sub_pos]
      exact_mod_cast hlo
    have hxlt : u * ((hi : ℚ) - lo) + lo < (hi : ℚ) := by nlinarith
    have h1 : ⌊u * ((hi : ℚ) - lo) + lo⌋ < (hi : ℤ) := Int.floor_lt.mpr (by exact_mod_cast hxlt)
    have h2 : (hi : ℤ) < (sz : ℤ) := by exact_mod_cast hlt
    omega
  · have hxle : u * ((hi : ℚ) - lo) + lo ≤ (hi : ℚ) := by nlinarith
    have h1 : ⌊u * ((hi : ℚ) - lo) + lo⌋ ≤ (hi : ℤ) := by
      calc ⌊u * ((hi : ℚ) - lo) + lo⌋ ≤ ⌊(hi : ℚ)⌋ := Int.floor_le_floor hxle
        _ = (hi : ℤ) := Int.floor_natCast _
    have h2 : (hi : ℤ) ≤ (sz : ℤ) - 2 := by omega
    omega

/-- Floor-index bounds for a full-extent uniform coordinate `u * (sz - 1)`. -/
lemma floor_bound_unif (u : ℚ) (hu0 : 0 ≤ u) (hu1 : u < 1) (sz : ℕ) (hsz : 2 ≤ sz) :
    0 ≤ ⌊u * ((sz : ℚ) - 1)⌋ ∧ ⌊u * ((sz : ℚ) - 1)⌋ + 1 ≤ (sz : ℤ) - 1 := by
  have h2 : (2 : ℚ) ≤ (sz : ℚ) := by exact_mod_cast hsz
  have hd : (0 : ℚ) ≤ (sz : ℚ) - 1 := by linarith
  refine ⟨Int.le_floor.mpr (by simpa using mul_nonneg hu0 hd), ?_⟩
  have hxlt : u * ((sz : ℚ) - 1) < (sz : ℚ) - 1 := by nlinarith
  have h1 : ⌊u * ((sz : ℚ) - 1)⌋ < (sz : ℤ) - 1 :=
    Int.floor_lt.mpr (by push_cast; linarith)
  omega

/-- Normalising a vector whose norm clears the clamp yields a unit vector. -/
lemma vnorm_vnormalize (v : Vec3R) (h : nEps ≤ vnorm v) :
    vnorm (vnormalize v) = 1 := by
  have heps : (0 : ℝ) < nEps := by norm_num [nEps]
  have hpos : 0 < vnorm v := lt_of_lt_of_le heps h
  have hS : v.x ^ 2 + v.y ^ 2 + v.z ^ 2 = vnorm v ^ 2 := by
    rw [vnorm, Real.sq_sqrt (by positivity)]
  have hone : (v.x / vnorm v) ^ 2 + (v.y / vnorm v) ^ 2 + (v.z / vnorm v) ^ 2 = 1 := by
    field_simp
    linarith [hS]
  have hv : vnormalize v = ⟨v.x / vnorm v, v.y / vnorm v, v.z / vnorm v⟩ := by
    simp only [vnormalize]
    rw [max_eq_left h]
  rw [hv]
  show Real.sqrt ((v.x / vnorm v) ^ 2 + (v.y / vnorm v) ^ 2 + (v.z / vnorm v) ^ 2) = 1
  rw [hone, Real.sqrt_one]

/-! ## Theorems: sphere intersection -/

/-- Claim C1: sphere intersection is all-or-nothing.  If any ray of the batch
has radicand `b^2 - (|o|^2 - r^2) <= 0`, the whole call to
`get_sphere_intersections` aborts (embedded as `none`); if the radicand is
strictly positive for every ray, the call returns the full batch of
intersection pairs. -/
theorem sphere_all_or_nothing (cam_loc ray_directions : List Vec3) (r : ℚ) :
    ((∃ p ∈ List.zip cam_loc ray_directions, under_sqrt p.1 p.2 r ≤ 0) →
        get_sphere_intersections cam_loc ray_directions r = none) ∧
    ((∀ p ∈ List.zip cam_loc ray_directions, 0 < under_sqrt p.1 p.2 r) →
        get_sphere_intersections cam_loc ray_directions r =
          some ((List.zip cam_loc ray_directions).map fun p => sphere_pair p.1 p.2 r)) := by
  constructor
  · rintro ⟨p, hp, hle⟩
    have hc : (List.zip cam_loc ray_directions).any
        (fun p => decide (under_sqrt p.1 p.2 r ≤ 0)) = true := by
      rw [List.any_eq_true]
      exact ⟨p, hp, by simpa using hle⟩
    simp [get_sphere_intersections, hc]
  · intro h
    have hc : (List.zip cam_loc ray_directions).any
        (fun p => decide (under_sqrt p.1 p.2 r ≤ 0)) = false := by
      rw [List.any_eq_false]
      intro p hp
      simpa using (h p hp).not_le
    simp [get_sphere_intersections, hc]

/-- Witness for C1 at a concrete batch: a ray from `(0,0,5)` along `(1,0,0)`
misses the unit sphere and the call aborts; a ray from `(0,0,2)` along
`(0,0,-1)` hits it and the call returns the batch. -/
theorem sphere_all_or_nothing_witness :
    get_sphere_intersections [⟨0, 0, 5⟩] [⟨1, 0, 0⟩] 1 = none ∧
    get_sphere_intersections [⟨0, 0, 2⟩] [⟨0, 0, -1⟩] 1 =
      some ((List.zip [(⟨0, 0, 2⟩ : Vec3)] [(⟨0, 0, -1⟩ : Vec3)]).map
        fun p => sphere_pair p.1 p.2 1) := by
  constructor
  · exact (sphere_all_or_nothing _ _ _).1
      ⟨(⟨0, 0, 5⟩, ⟨1, 0, 0⟩), by simp, by norm_num [under_sqrt, dot3, normSq3]⟩
  · refine (sphere_all_or_nothing _ _ _).2 ?_
    intro p hp
    simp only [List.zip_cons_cons, List.zip_nil_right, List.mem_singleton] at hp
    subst hp
    norm_num [under_sqrt, dot3, normSq3]

/-- Claim C3: for a batch accepted by `get_sphere_intersections` (every
radicand strictly positive), each returned row is
`(max 0 (-b - sqrt disc), max 0 (-b + sqrt disc))` and near <= far. -/
theorem sphere_values_ordering (cam_loc ray_directions : List Vec3) (r : ℚ)
    (out : List (ℝ × ℝ))
    (h : get_sphere_intersections cam_loc ray_directions r = some out) :
    out = (List.zip cam_loc ray_directions).map (fun p =>
        (max 0 (-((dot3 p.2 p.1 : ℚ) : ℝ) - Real.sqrt ((under_sqrt p.1 p.2 r : ℚ) : ℝ)),
         max 0 (-((dot3 p.2 p.1 : ℚ) : ℝ) + Real.sqrt ((under_sqrt p.1 p.2 r : ℚ) : ℝ)))) ∧
    ∀ q ∈ out, q.1 ≤ q.2 := by
  have hout : out = (List.zip cam_loc ray_directions).map fun p => sphere_pair p.1 p.2 r := by
    by_cases hc : (List.zip cam_loc ray_directions).any
        (fun p => decide (under_sqrt p.1 p.2 r ≤ 0)) = true
    · simp [get_sphere_intersections, hc] at h
    · simp [get_sphere_intersections, hc] at h
      exact h.symm
  constructor
  · rw [hout]
    refine List.map_congr_left ?_
    intro p _
    unfold sphere_pair
    rw [Prod.mk.injEq]
    constructor <;> · rw [max_comm]; congr 1; ring
  · intro q hq
    rw [hout] at hq
    obtain ⟨p, _, hpq⟩ := List.mem_map.mp hq
    rw [← hpq]
    unfold sphere_pair
    have hs : (0:ℝ) ≤ Real.sqrt ((under_sqrt p.1 p.2 r : ℚ) : ℝ) := Real.sqrt_nonneg _
    exact max_le_max (by linarith) le_rfl

/-- Witness for C3 at the concrete accepted batch from the C1 witness. -/
theorem sphere_values_ordering_witness :
    ([sphere_pair ⟨0, 0, 2⟩ ⟨0, 0, -1⟩ 1] =
      (List.zip [(⟨0, 0, 2⟩ : Vec3)] [(⟨0, 0, -1⟩ : Vec3)]).map (fun p =>
        (max 0 (-((dot3 p.2 p.1 : ℚ) : ℝ) - Real.sqrt ((under_sqrt p.1 p.2 1 : ℚ) : ℝ)),
         max 0 (-((dot3 p.2 p.1 : ℚ) : ℝ) + Real.sqrt ((under_sqrt p.1 p.2 1 : ℚ) : ℝ))))) ∧
    ∀ q ∈ [sphere_pair (⟨0, 0, 2⟩ : Vec3) ⟨0, 0, -1⟩ 1], q.1 ≤ q.2 := by
  refine sphere_values_ordering [⟨0, 0, 2⟩] [⟨0, 0, -1⟩] 1 _ ?_
  have hc : (List.zip [(⟨0, 0, 2⟩ : Vec3)] [(⟨0, 0, -1⟩ : Vec3)]).any
      (fun p => decide (under_sqrt p.1 p.2 1 ≤ 0)) = false := by
    norm_num [under_sqrt, dot3, normSq3]
  simp only [get_sphere_intersections, hc, Bool.false_eq_true, if_false]
  simp

/-! ## Theorems: batched 3x3 inverse -/

/-- Claim C2: per-element singularity handling in `inverse_3x3_batch`.  The
diagnostic warning flag is raised exactly when some batch element has
determinant zero; the batch is never truncated; an element with zero
determinant becomes the all-NaN matrix while every other element is inverted
normally. -/
theorem inverse_singularity_policy (mats : List (GMat3 ℚ)) :
    ((inverse_3x3_batch mats).2 = true ↔ ∃ m ∈ mats, det3 m = 0) ∧
    (inverse_3x3_batch mats).1.length = mats.length ∧
    ∀ i (h1 : i < mats.length) (h2 : i < (inverse_3x3_batch mats).1.length),
      (det3 (mats.get ⟨i, h1⟩) = 0 →
        (inverse_3x3_batch mats).1.get ⟨i, h2⟩ = nan3) ∧
      (det3 (mats.get ⟨i, h1⟩) ≠ 0 →
        (inverse_3x3_batch mats).1.get ⟨i, h2⟩ = (inv3 (mats.get ⟨i, h1⟩)).map some) := by
  refine ⟨?_, ?_, ?_⟩
  · simp [inverse_3x3_batch, List.any_eq_true]
  · simp [inverse_3x3_batch]
  · intro i h1 h2
    have hg : (inverse_3x3_batch mats).1.get ⟨i, h2⟩ = inv_one (mats.get ⟨i, h1⟩) := by
      simp [inverse_3x3_batch, List.get_eq_getElem, List.getElem_map]
    constructor <;> intro hdet <;> rw [hg, inv_one]
    · rw [if_pos hdet]
    · rw [if_neg hdet]

/-- Witness for C2 at a concrete two-element batch: the zero matrix is mapped
to the all-NaN matrix and the warning is emitted, while the invertible second
element is inverted normally. -/
theorem inverse_singularity_policy_witness :
    (inverse_3x3_batch [⟨0, 0, 0, 0, 0, 0, 0, 0, 0⟩, ⟨1, 2, 3, 0, 1, 4, 5, 6, 0⟩]).2 = true ∧
    (inverse_3x3_batch [⟨0, 0, 0, 0, 0, 0, 0, 0, 0⟩, ⟨1, 2, 3, 0, 1, 4, 5, 6, 0⟩]).1.get
        ⟨0, by simp [inverse_3x3_batch]⟩ = nan3 ∧
    (inverse_3x3_batch [⟨0, 0, 0, 0, 0, 0, 0, 0, 0⟩, ⟨1, 2, 3, 0, 1, 4, 5, 6, 0⟩]).1.get
        ⟨1, by simp [inverse_3x3_batch]⟩ =
      (inv3 ⟨1, 2, 3, 0, 1, 4, 5, 6, 0⟩).map some := by
  have h := inverse_singularity_policy [⟨0, 0, 0, 0, 0, 0, 0, 0, 0⟩, ⟨1, 2, 3, 0, 1, 4, 5, 6, 0⟩]
  refine ⟨h.1.mpr ⟨⟨0, 0, 0, 0, 0, 0, 0, 0, 0⟩, by simp, by norm_num [det3]⟩, ?_, ?_⟩
  · exact (h.2.2 0 (by norm_num) (by simp [inverse_3x3_batch])).1 (by norm_num [det3])
  · exact (h.2.2 1 (by norm_num) (by simp [inverse_3x3_batch])).2 (by norm_num [det3])

/-- Claim C4: for a batch element with nonzero determinant,
`inverse_3x3_batch` returns the adjugate divided by the cofactor-expansion
determinant, and over exact arithmetic that matrix is a right inverse:
`M * (adjugate M / det M) = identity`. -/
theorem inverse_correctness (mats : List (GMat3 ℚ)) (i : ℕ)
    (h1 : i < mats.length) (h2 : i < (inverse_3x3_batch mats).1.length)
    (hdet : det3 (mats.get ⟨i, h1⟩) ≠ 0) :
    (inverse_3x3_batch mats).1.get ⟨i, h2⟩ = (inv3 (mats.get ⟨i, h1⟩)).map some ∧
    mul3 (mats.get ⟨i, h1⟩) (inv3 (mats.get ⟨i, h1⟩)) = id3 := by
  constructor
  · have hg : (inverse_3x3_batch mats).1.get ⟨i, h2⟩ = inv_one (mats.get ⟨i, h1⟩) := by
      simp [inverse_3x3_batch, List.get_eq_getElem, List.getElem_map]
    rw [hg, inv_one, if_neg hdet]
  · set m := mats.get ⟨i, h1⟩ with hm
    unfold mul3 inv3 adjugate3 GMat3.map id3
    rw [GMat3.mk.injEq]
    refine ⟨?_, ?_, ?_, ?_, ?_, ?_, ?_, ?_, ?_⟩ <;>
      · field_simp
        simp only [det3] at hdet ⊢
        ring_nf

/-- Witness for C4 at a concrete invertible batch element. -/
theorem inverse_correctness_witness :
    (inverse_3x3_batch [(⟨1, 2, 3, 0, 1, 4, 5, 6, 0⟩ : GMat3 ℚ)]).1.get
        ⟨0, by simp [inverse_3x3_batch]⟩ =
      (inv3 ⟨1, 2, 3, 0, 1, 4, 5, 6, 0⟩).map some ∧
    mul3 (⟨1, 2, 3, 0, 1, 4, 5, 6, 0⟩ : GMat3 ℚ) (inv3 ⟨1, 2, 3, 0, 1, 4, 5, 6, 0⟩) = id3 :=
  inverse_correctness [⟨1, 2, 3, 0, 1, 4, 5, 6, 0⟩] 0 (by norm_num)
    (by simp [inverse_3x3_batch]) (by norm_num [det3])

/-! ## Theorems: weighted sampling -/

/-- Claim C6: a mask with no True pixels aborts `weighted_sampling` as a
whole-call error (`none`), whatever the fields, sizes, counts or random
draws: in particular before any sample coordinate is drawn or any field is
interpolated. -/
theorem empty_mask_aborts (data : List Field) (mask : List (List Bool))
    (img_size : ℕ × ℕ) (num_sample : ℕ) (bbox_ratio : ℚ)
    (randB randU : ℕ → ℚ × ℚ)
    (h : ∀ row ∈ mask, ∀ b ∈ row, b = false) :
    weighted_sampling data mask img_size num_sample bbox_ratio randB randU = none := by
  have ht : truePixels mask = [] := by
    unfold truePixels
    rw [List.flatten_eq_nil_iff]
    intro l hl
    obtain ⟨ri, hri, rfl⟩ := List.mem_map.mp hl
    rw [List.filterMap_eq_nil_iff]
    intro cj hcj
    have hrow : ri.2 ∈ mask := by
      rw [List.mem_enum_iff_getElem?] at hri
      exact List.getElem?_mem hri
    have hb : cj.2 ∈ ri.2 := by
      rw [List.mem_enum_iff_getElem?] at hcj
      exact List.getElem?_mem hcj
    simp [h ri.2 hrow cj.2 hb]
  unfold weighted_sampling bboxOf
  rw [ht]

/-- Witness for C6 at a concrete all-false mask. -/
theorem empty_mask_aborts_witness :
    weighted_sampling [Field.f2 fun _ _ => 0] [[false, false], [false, false]]
      (2, 2) 5 (9 / 10) (fun _ => (0, 0)) (fun _ => (0, 0)) = none :=
  empty_mask_aborts _ _ _ _ _ _ _ (by decide)

/-- Counterexample to C5 as stated: at `num_sample = 3`, `bbox_ratio = 9/10`
the code draws `int(2.7) = 2` bounding-box coordinates, not
`round(2.7) = 3`. -/
theorem sampling_round_counterexample :
    num_sample_bbox 3 (9 / 10) ≠ (round ((3 : ℚ) * (9 / 10))).toNat ∧
    (samples_bbox (0, 0) (1, 1) (num_sample_bbox 3 (9 / 10)) fun _ => (0, 0)).length ≠
      (round ((3 : ℚ) * (9 / 10))).toNat := by
  have h1 : num_sample_bbox 3 (9 / 10) = 2 := by
    norm_num [num_sample_bbox, ratTrunc]
    rfl
  have h2 : (round ((3 : ℚ) * (9 / 10))).toNat = 3 := by
    rw [round_eq]
    norm_num
    rfl
  refine ⟨by rw [h1, h2]; omega, ?_⟩
  rw [h2]
  simp [samples_bbox, h1]

/-- Claim C5 (amended): `weighted_sampling` draws exactly
`int(num_sample * bbox_ratio)` (truncation toward zero, the floor for a
nonnegative ratio — not `round`) coordinates inside the mask bounding box,
the remaining `num_sample - that` over the full image extent, and each
output field carries exactly `num_sample` interpolated values with its
channel dimensionality preserved. -/
theorem sampling_split_and_counts (data : List Field) (mask : List (List Bool))
    (img_size : ℕ × ℕ) (num_sample : ℕ) (bbox_ratio : ℚ)
    (randB randU : ℕ → ℚ × ℚ) (bbox_min bbox_max : ℕ × ℕ)
    (out : List FieldOut × List ℕ)
    (hbb : bboxOf mask = some (bbox_min, bbox_max))
    (hr0 : 0 ≤ bbox_ratio) (hr1 : bbox_ratio ≤ 1)
    (hB : ∀ k, 0 ≤ (randB k).1 ∧ (randB k).1 ≤ 1 ∧ 0 ≤ (randB k).2 ∧ (randB k).2 ≤ 1)
    (h : weighted_sampling data mask img_size num_sample bbox_ratio randB randU
      = some out) :
    num_sample_bbox num_sample bbox_ratio = ⌊(num_sample : ℚ) * bbox_ratio⌋.toNat ∧
    num_sample_bbox num_sample bbox_ratio ≤ num_sample ∧
    (samples_bbox bbox_min bbox_max (num_sample_bbox num_sample bbox_ratio) randB).length
        = num_sample_bbox num_sample bbox_ratio ∧
    (∀ p ∈ samples_bbox bbox_min bbox_max (num_sample_bbox num_sample bbox_ratio) randB,
        (bbox_min.1 : ℚ) ≤ p.1 ∧ p.1 ≤ (bbox_max.1 : ℚ) ∧
        (bbox_min.2 : ℚ) ≤ p.2 ∧ p.2 ≤ (bbox_max.2 : ℚ)) ∧
    (samples_uniform img_size (num_sample - num_sample_bbox num_sample bbox_ratio)
        randU).length = num_sample - num_sample_bbox num_sample bbox_ratio ∧
    (sampling_indices bbox_min bbox_max img_size num_sample bbox_ratio
        randB randU).length = num_sample ∧
    out.1.length = data.length ∧
    List.Forall₂ (fieldOutOk num_sample) data out.1 := by
  have htrunc : num_sample_bbox num_sample bbox_ratio
      = ⌊(num_sample : ℚ) * bbox_ratio⌋.toNat := by
    unfold num_sample_bbox ratTrunc
    rw [if_pos (mul_nonneg (Nat.cast_nonneg _) hr0)]
  have hble : num_sample_bbox num_sample bbox_ratio ≤ num_sample := by
    rw [htrunc]
    have h1 : (num_sample : ℚ) * bbox_ratio ≤ (num_sample : ℚ) :=
      mul_le_of_le_one_right (Nat.cast_nonneg _) hr1
    have h2 : ⌊(num_sample : ℚ) * bbox_ratio⌋ ≤ (num_sample : ℤ) := by
      calc ⌊(num_sample : ℚ) * bbox_ratio⌋ ≤ ⌊(num_sample : ℚ)⌋ := Int.floor_le_floor h1
        _ = (num_sample : ℤ) := Int.floor_natCast _
    exact_mod_cast Int.toNat_le.mpr h2
  have hmm := bbox_min_le_max mask bbox_min bbox_max hbb
  have hidx : (sampling_indices bbox_min bbox_max img_size num_sample bbox_ratio
      randB randU).length = num_sample := by
    simp only [sampling_indices, List.length_append, samples_bbox, samples_uniform,
      List.length_map, List.length_range]
    omega
  have hout1 : out.1 = data.map (sampleField (sampling_indices bbox_min bbox_max
      img_size num_sample bbox_ratio randB randU)) := by
    simp only [weighted_sampling, hbb] at h
    exact (congrArg Prod.fst (Option.some_inj.mp h)).symm
  refine ⟨htrunc, hble, by simp [samples_bbox], ?_, by simp [samples_uniform], hidx, ?_, ?_⟩
  · intro p hp
    simp only [samples_bbox, List.mem_map, List.mem_range] at hp
    obtain ⟨k, -, rfl⟩ := hp
    obtain ⟨hk1, hk2, hk3, hk4⟩ := hB k
    exact ⟨(bbox_coord_bounds _ hk1 hk2 _ _ hmm.1).1,
      (bbox_coord_bounds _ hk1 hk2 _ _ hmm.1).2,
      (bbox_coord_bounds _ hk3 hk4 _ _ hmm.2).1,
      (bbox_coord_bounds _ hk3 hk4 _ _ hmm.2).2⟩
  · rw [hout1, List.length_map]
  · rw [hout1, List.forall₂_map_right_iff, List.forall₂_same]
    intro f _
    cases f with
    | f2 g => simpa [fieldOutOk, sampleField] using hidx
    | f3 c g =>
      refine ⟨rfl, by simpa [sampleField] using hidx, ?_⟩
      intro v hv
      simp only [sampleField, List.mem_map] at hv
      obtain ⟨p, -, rfl⟩ := hv
      simp

/-- Witness for the amended C5 at a concrete call: one scalar field, a
single-pixel mask, three requested samples at ratio `9/10`. -/
theorem sampling_split_and_counts_witness :
    num_sample_bbox 3 (9 / 10) = ⌊(3 : ℚ) * (9 / 10)⌋.toNat ∧
    num_sample_bbox 3 (9 / 10) ≤ 3 ∧
    (samples_bbox (0, 0) (0, 0) (num_sample_bbox 3 (9 / 10)) wRand).length
        = num_sample_bbox 3 (9 / 10) ∧
    (∀ p ∈ samples_bbox (0, 0) (0, 0) (num_sample_bbox 3 (9 / 10)) wRand,
        ((((0, 0) : ℕ × ℕ)).1 : ℚ) ≤ p.1 ∧ p.1 ≤ ((((0, 0) : ℕ × ℕ)).1 : ℚ) ∧
        ((((0, 0) : ℕ × ℕ)).2 : ℚ) ≤ p.2 ∧ p.2 ≤ ((((0, 0) : ℕ × ℕ)).2 : ℚ)) ∧
    (samples_uniform (4, 4) (3 - num_sample_bbox 3 (9 / 10)) wRand).length
        = 3 - num_sample_bbox 3 (9 / 10) ∧
    (sampling_indices (0, 0) (0, 0) (4, 4) 3 (9 / 10) wRand wRand).length = 3 ∧
    wOut.1.length = [Field.f2 fun _ _ => (0 : ℚ)].length ∧
    List.Forall₂ (fieldOutOk 3) [Field.f2 fun _ _ => (0 : ℚ)] wOut.1 := by
  have hbbc : bboxOf [[true]] = some ((0, 0), (0, 0)) := by decide
  refine sampling_split_and_counts [Field.f2 fun _ _ => 0] [[true]] (4, 4) 3 (9 / 10)
    wRand wRand (0, 0) (0, 0) wOut hbbc (by norm_num) (by norm_num)
    (fun k => by norm_num [wRand]) ?_
  simp only [weighted_sampling, hbbc, wOut, List.map_cons, List.map_nil]

/-- Claim C10: with an image at least 2 pixels wide on each axis, a mask whose
True pixels lie in the grid, and, on each axis, a bounding box that is either
non-degenerate or leaves a one-pixel margin, every grid index used by
`bilinear_interpolation` on the generated samples — `floor` and `floor + 1`
of each coordinate, the random draws lying in `[0, 1)` — stays inside
`[0, img_size - 1]`, so no field array is indexed out of bounds. -/
theorem sampling_indices_in_bounds (mask : List (List Bool)) (H W num_sample : ℕ)
    (bbox_ratio : ℚ) (randB randU : ℕ → ℚ × ℚ) (bbox_min bbox_max : ℕ × ℕ)
    (hbb : bboxOf mask = some (bbox_min, bbox_max))
    (hH : 2 ≤ H) (hW : 2 ≤ W)
    (hpx : ∀ pr ∈ truePixels mask, pr.1 < H ∧ pr.2 < W)
    (hax1 : bbox_min.1 < bbox_max.1 ∨ bbox_max.1 ≤ H - 2)
    (hax2 : bbox_min.2 < bbox_max.2 ∨ bbox_max.2 ≤ W - 2)
    (hB : ∀ k, 0 ≤ (randB k).1 ∧ (randB k).1 < 1 ∧ 0 ≤ (randB k).2 ∧ (randB k).2 < 1)
    (hU : ∀ k, 0 ≤ (randU k).1 ∧ (randU k).1 < 1 ∧ 0 ≤ (randU k).2 ∧ (randU k).2 < 1) :
    ∀ p ∈ sampling_indices bbox_min bbox_max (H, W) num_sample bbox_ratio randB randU,
      (0 ≤ ⌊p.1⌋ ∧ ⌊p.1⌋ + 1 ≤ (H : ℤ) - 1) ∧
      (0 ≤ ⌊p.2⌋ ∧ ⌊p.2⌋ + 1 ≤ (W : ℤ) - 1) := by
  have hmm := bbox_min_le_max mask bbox_min bbox_max hbb
  have hlt := bbox_max_lt mask bbox_min bbox_max H W hbb hpx
  intro p hp
  rw [sampling_indices, List.mem_append] at hp
  rcases hp with hp | hp
  · simp only [samples_bbox, List.mem_map, List.mem_range] at hp
    obtain ⟨k, -, rfl⟩ := hp
    obtain ⟨h1, h2, h3, h4⟩ := hB k
    exact ⟨floor_bound_bbox _ h1 h2 _ _ _ hmm.1 hlt.1 hH hax1,
           floor_bound_bbox _ h3 h4 _ _ _ hmm.2 hlt.2 hW hax2⟩
  · simp only [samples_uniform, List.mem_map, List.mem_range] at hp
    obtain ⟨k, -, rfl⟩ := hp
    obtain ⟨h1, h2, h3, h4⟩ := hU k
    exact ⟨floor_bound_unif _ h1 h2 _ hH, floor_bound_unif _ h3 h4 _ hW⟩

/-- Witness for C10 at a concrete call: 2x2 image, single True pixel at the
origin (a degenerate box with a one-pixel margin on both axes), checked at
the first generated sample. -/
theorem sampling_indices_in_bounds_witness :
    (0 ≤ ⌊wPt.1⌋ ∧ ⌊wPt.1⌋ + 1 ≤ ((2 : ℕ) : ℤ) - 1) ∧
    (0 ≤ ⌊wPt.2⌋ ∧ ⌊wPt.2⌋ + 1 ≤ ((2 : ℕ) : ℤ) - 1) := by
  have hmem : wPt ∈ sampling_indices (0, 0) (0, 0) (2, 2) 3 (9 / 10) wRand wRand := by
    rw [sampling_indices, List.mem_append]
    left
    rw [samples_bbox, List.mem_map]
    refine ⟨0, ?_, rfl⟩
    rw [List.mem_range]
    norm_num [num_sample_bbox, ratTrunc]
  exact sampling_indices_in_bounds [[true, false], [false, false]] 2 2 3 (9 / 10)
    wRand wRand (0, 0) (0, 0) (by decide) (by norm_num) (by norm_num)
    (by decide) (Or.inr (by norm_num)) (Or.inr (by norm_num))
    (fun k => by norm_num [wRand]) (fun k => by norm_num [wRand]) wPt hmem

/-! ## Theorems: camera rays and rotation algebra -/

/-- Claim C7: for well-formed intrinsics (nonzero focal lengths) and
non-degenerate ray directions (raw direction norm at least the normalisation
clamp), `get_camera_params` returns unit-norm directions, and returns as
origin exactly the translation component of the pose: `t` for a 7-vector
pose `[q, t]`, the top-right column for a 4x4 pose. -/
theorem camera_rays_unit_norm (uv : List (ℝ × ℝ)) (pose : Pose) (K : Mat4)
    (hfx : K.e00 ≠ 0) (hfy : K.e11 ≠ 0)
    (hdir : ∀ s ∈ uv, nEps ≤ vnorm (rawDir pose K s)) :
    (∀ d ∈ (get_camera_params uv pose K).1, vnorm d = 1) ∧
    (get_camera_params uv pose K).2 = poseLoc pose ∧
    (∀ q t, pose = Pose.quat7 q t → (get_camera_params uv pose K).2 = t) ∧
    (∀ m, pose = Pose.mat4 m →
      (get_camera_params uv pose K).2 = ⟨m.e03, m.e13, m.e23⟩) := by
  refine ⟨?_, rfl, ?_, ?_⟩
  · intro d hd
    simp only [get_camera_params, List.mem_map] at hd
    obtain ⟨s, hs, rfl⟩ := hd
    exact vnorm_vnormalize _ (hdir s hs)
  · rintro q t rfl
    rfl
  · rintro m rfl
    rfl

/-- Witness for C7: identity intrinsics and identity matrix pose, one pixel
at the principal point; the lifted ray direction is `(0,0,1)`. -/
theorem camera_rays_unit_norm_witness :
    (∀ d ∈ (get_camera_params [(0, 0)] (Pose.mat4 idMat4) idMat4).1, vnorm d = 1) ∧
    (get_camera_params [(0, 0)] (Pose.mat4 idMat4) idMat4).2 = poseLoc (Pose.mat4 idMat4) ∧
    (∀ q t, Pose.mat4 idMat4 = Pose.quat7 q t →
      (get_camera_params [(0, 0)] (Pose.mat4 idMat4) idMat4).2 = t) ∧
    (∀ m, Pose.mat4 idMat4 = Pose.mat4 m →
      (get_camera_params [(0, 0)] (Pose.mat4 idMat4) idMat4).2 = ⟨m.e03, m.e13, m.e23⟩) := by
  refine camera_rays_unit_norm [(0, 0)] (Pose.mat4 idMat4) idMat4
    (by norm_num [idMat4]) (by norm_num [idMat4]) ?_
  intro s hs
  simp only [List.mem_singleton] at hs
  subst hs
  have hv : rawDir (Pose.mat4 idMat4) idMat4 (0, 0) = ⟨0, 0, 1⟩ := by
    simp only [rawDir, poseMat, poseLoc, mat4App, lift, vsub, idMat4]
    norm_num
  rw [hv]
  norm_num [vnorm, nEps, Real.sqrt_one]

/-- Claim C8: for a unit quaternion with scalar part bounded away from zero,
`rot_to_quat (quat_to_rot q)` recovers `q` exactly up to sign (the claimed
1e-4 tolerance is met with error zero over exact arithmetic). -/
theorem rotation_round_trip (q : Quat) (hn : qnorm q = 1) (hw : 1 / 10 < |q.r|) :
    rot_to_quat (quat_to_rot q) = q ∨
    rot_to_quat (quat_to_rot q) = ⟨-q.r, -q.i, -q.j, -q.k⟩ := by
  obtain ⟨r, i, j, k⟩ := q
  simp only at hn hw ⊢
  have hs : r ^ 2 + i ^ 2 + j ^ 2 + k ^ 2 = 1 := by
    rw [qnorm] at hn
    have h0 : (0 : ℝ) ≤ r ^ 2 + i ^ 2 + j ^ 2 + k ^ 2 := by positivity
    nlinarith [Real.sq_sqrt h0, hn]
  have hq' : qnormalize ⟨r, i, j, k⟩ = ⟨r, i, j, k⟩ := by
    simp only [qnormalize, hn]
    rw [max_eq_left (by norm_num [nEps])]
    simp [div_one]
  have habs : 0 < |r| := lt_trans (by norm_num) hw
  have hr0 : r ≠ 0 := by
    intro h
    rw [h] at habs
    simp at habs
  have htr : 1 + (quat_to_rot ⟨r, i, j, k⟩).m00 + (quat_to_rot ⟨r, i, j, k⟩).m11
      + (quat_to_rot ⟨r, i, j, k⟩).m22 = (2 * r) ^ 2 := by
    simp only [quat_to_rot, hq']
    nlinarith [hs]
  have hq0 : Real.sqrt (1 + (quat_to_rot ⟨r, i, j, k⟩).m00 + (quat_to_rot ⟨r, i, j, k⟩).m11
      + (quat_to_rot ⟨r, i, j, k⟩).m22) / 2 = |r| := by
    rw [htr, Real.sqrt_sq_eq_abs, abs_mul]
    norm_num
  have h21 : (quat_to_rot ⟨r, i, j, k⟩).m21 - (quat_to_rot ⟨r, i, j, k⟩).m12
      = 4 * i * r := by
    simp only [quat_to_rot, hq']
    ring
  have h02 : (quat_to_rot ⟨r, i, j, k⟩).m02 - (quat_to_rot ⟨r, i, j, k⟩).m20
      = 4 * j * r := by
    simp only [quat_to_rot, hq']
    ring
  have h10 : (quat_to_rot ⟨r, i, j, k⟩).m10 - (quat_to_rot ⟨r, i, j, k⟩).m01
      = 4 * k * r := by
    simp only [quat_to_rot, hq']
    ring
  rcases abs_cases r with ⟨hab, hsign⟩ | ⟨hab, hsign⟩
  · left
    simp only [rot_to_quat]
    rw [htr, Real.sqrt_sq_eq_abs, abs_mul, h21, h02, h10]
    have hA : |(2 : ℝ)| * |r| / 2 = r := by
      rw [hab]
      norm_num
    rw [hA, Quat.mk.injEq]
    refine ⟨rfl, ?_, ?_, ?_⟩ <;> (field_simp; try ring)
  · right
    simp only [rot_to_quat]
    rw [htr, Real.sqrt_sq_eq_abs, abs_mul, h21, h02, h10]
    have hA : |(2 : ℝ)| * |r| / 2 = -r := by
      rw [hab, abs_of_pos (by norm_num : (0 : ℝ) < 2)]
      ring
    rw [hA, Quat.mk.injEq]
    refine ⟨rfl, ?_, ?_, ?_⟩ <;> (field_simp; try ring)

/-- Witness for C8 at the identity quaternion. -/
theorem rotation_round_trip_witness :
    rot_to_quat (quat_to_rot ⟨1, 0, 0, 0⟩) = (⟨1, 0, 0, 0⟩ : Quat) ∨
    rot_to_quat (quat_to_rot ⟨1, 0, 0, 0⟩) = (⟨-1, -0, -0, -0⟩ : Quat) :=
  rotation_round_trip ⟨1, 0, 0, 0⟩ (by norm_num [qnorm, Real.sqrt_one]) (by norm_num)

/-- Claim C9: for a unit quaternion `q` and translation `t`, the 7-vector
pose branch and the equivalent 4x4 homogeneous pose branch of
`get_camera_params` produce identical ray directions and origins. -/
theorem pose_representation_equivalence (uv : List (ℝ × ℝ)) (q : Quat)
    (t : Vec3R) (K : Mat4) (hq : qnorm q = 1) :
    get_camera_params uv (Pose.quat7 q t) K =
      get_camera_params uv (Pose.mat4 (homogPose (quat_to_rot q) t)) K := rfl

/-- Witness for C9 at the identity quaternion, zero translation, identity
intrinsics and one pixel. -/
theorem pose_representation_equivalence_witness :
    get_camera_params [(0, 0)] (Pose.quat7 ⟨1, 0, 0, 0⟩ ⟨0, 0, 0⟩) idMat4 =
      get_camera_params [(0, 0)]
        (Pose.mat4 (homogPose (quat_to_rot ⟨1, 0, 0, 0⟩) ⟨0, 0, 0⟩)) idMat4 :=
  pose_representation_equivalence _ _ _ _ (by norm_num [qnorm, Real.sqrt_one])

end V2A
